import Mathlib

/-!
Verification of the DeltaCLI training core: a shallow embedding in Lean 4 of
the dataset item construction, sampling filters, learning-rate schedule,
optimizer parameter partition and distributed-trainer arithmetic from
`training/train.py` and `training/train_multi.py`.  Machine floats are
modelled as rationals (`WithBot ℚ` stands for float values that may be
`-inf`), except for the learning-rate schedule where the cosine forces real
numbers.  Exponentiation inside softmax is kept as an abstract strictly
positive function, matching the only facts about `exp` the code relies on.
-/

namespace DeltaSpec

/-! ## Model configuration (train.py, `ModelConfig`) -/

structure ModelConfig where
  vocab_size : ℕ := 10000
  block_size : ℕ := 256
  n_layer : ℕ := 6
  n_head : ℕ := 8
  n_embd : ℕ := 384
  dropout : ℚ := 1/10
  bias : Bool := false
deriving DecidableEq

/-! ## C10: `CommandDataset.__getitem__` (train.py lines 168-182) -/

/-- The pad-or-truncate step of `CommandDataset.__getitem__` (train.py lines
172-176): a stored token list longer than `block_size` is truncated to
`block_size`, a shorter one is zero-padded up to `block_size`. -/
def padTrunc (tokens : List ℕ) (block_size : ℕ) : List ℕ :=
  if block_size < tokens.length then tokens.take block_size
  else if tokens.length < block_size then
    tokens ++ List.replicate (block_size - tokens.length) 0
  else tokens

/-- `CommandDataset.__getitem__` (train.py lines 168-182): after padding or
truncating, `x = tokens[:-1]` and `y = tokens[1:]`. -/
def getitem (tokens : List ℕ) (block_size : ℕ) : List ℕ × List ℕ :=
  let t := padTrunc tokens block_size
  (t.dropLast, t.tail)

/-! ## C7: `Trainer.setup_distributed` (train_multi.py lines 59-97) -/

/-- The launch environment probed by `Trainer.setup_distributed`: whether a
`RANK` variable is present, and the rank / local rank / world size the process
group reports. -/
structure DistEnv where
  rankPresent : Bool
  rank : ℕ
  localRank : ℕ
  worldSize : ℕ

/-- The distributed-context fields `setup_distributed` writes, plus the
(possibly rescaled) gradient-accumulation factor. -/
structure DistSetup where
  rank : ℕ
  localRank : ℕ
  worldSize : ℕ
  isMainProcess : Bool
  distributed : Bool
  gradient_accumulation_steps : ℕ
deriving DecidableEq

/-- `Trainer.setup_distributed` (train_multi.py lines 59-97).  Without a
`RANK` variable it degrades to world size 1 and leaves the accumulation
factor alone; otherwise it floor-divides the configured factor by the world
size and raises the result to 1 if it fell below 1. -/
def setup_distributed (env : DistEnv) (gradient_accumulation_steps : ℕ) : DistSetup :=
  if env.rankPresent = false then
    { rank := 0, localRank := 0, worldSize := 1, isMainProcess := true,
      distributed := false,
      gradient_accumulation_steps := gradient_accumulation_steps }
  else
    let g := gradient_accumulation_steps / env.worldSize
    { rank := env.rank, localRank := env.localRank, worldSize := env.worldSize,
      isMainProcess := env.rank == 0, distributed := true,
      gradient_accumulation_steps := if g < 1 then 1 else g }

/-! ## C9: `Trainer.load_checkpoint` (train_multi.py lines 286-316) -/

/-- The fields `load_checkpoint` reads out of a successfully loaded
checkpoint, both fetched with `.get(key, default)`. -/
structure CheckpointData where
  iter_num : Option ℕ
  best_val_loss : Option (WithTop ℚ)

/-- The trainer state `load_checkpoint` establishes. -/
structure ResumeState where
  iter_num : ℕ
  best_val_loss : WithTop ℚ
deriving DecidableEq

/-- `Trainer.load_checkpoint` (train_multi.py lines 286-316).  The whole body
of the `try` block (torch.load, `_orig_mod.` prefix stripping, state-dict and
optimizer loading, field reads) is modelled as an `Except`-valued attempt; the
`except Exception` arm logs and resets to iteration 0 with best loss `inf`
(`⊤`), and the function is total: no failure propagates. -/
def load_checkpoint (attempt : Except String CheckpointData) : ResumeState :=
  match attempt with
  | .ok c => { iter_num := c.iter_num.getD 0, best_val_loss := c.best_val_loss.getD ⊤ }
  | .error _ => { iter_num := 0, best_val_loss := ⊤ }

/-! ## C8: `Trainer.evaluate` distributed aggregation (train_multi.py lines 350-387) -/

/-- `dist.reduce(t, dst=0, op=SUM)` on one equal-length loss vector per rank:
rank 0 receives the elementwise sum of all ranks' vectors. -/
def reduceSum (losses : List (List ℚ)) : List ℚ :=
  match losses with
  | [] => []
  | l :: ls => ls.foldl (fun acc m => acc.zipWith (· + ·) m) l

/-- Rank 0's side of `Trainer.evaluate` in distributed mode (train_multi.py
lines 377-387): the reduced per-batch loss vector is divided elementwise by
`world_size * len(val_losses)`, converted back to a list, and then
`avg_val_loss = sum(val_losses) / len(val_losses)` is returned.
`losses` holds each rank's local `val_losses` list (all of equal length as
produced by the DistributedSampler-backed loader). -/
def evaluate_rank0 (losses : List (List ℚ)) : ℚ :=
  let world_size : ℕ := losses.length
  let local0 : List ℚ := losses.headD []
  let reduced := reduceSum losses
  let divided := reduced.map (fun x => x / ((world_size * local0.length : ℕ) : ℚ))
  divided.sum / (divided.length : ℚ)

/-- The cross-replica average of the per-batch validation losses: total loss
mass over (number of ranks × local batch count). -/
def crossReplicaAverage (losses : List (List ℚ)) : ℚ :=
  (losses.map List.sum).sum / ((losses.length * (losses.headD []).length : ℕ) : ℚ)

/-! ## C6: model construction (train.py lines 187-212 and 284-304) -/

/-- The two ways construction can raise inside the repository's own code. -/
inductive InitError where
  | zeroDivision : InitError
  | assertionError : InitError
deriving DecidableEq

/-- `CausalSelfAttention.__init__` (train.py line 189):
`assert config.n_embd % config.n_head == 0`.  Python `%` with a zero modulus
raises `ZeroDivisionError` on that same line. -/
def causalSelfAttention_init (n_embd n_head : ℕ) : Except InitError Unit :=
  if n_head = 0 then .error .zeroDivision
  else if n_embd % n_head = 0 then .ok ()
  else .error .assertionError

/-- `Block.__init__` (train.py lines 269-274) builds ln_1, the attention
module, ln_2 and the MLP; its only failure point is the attention assert. -/
def block_init (n_embd n_head : ℕ) : Except InitError Unit :=
  causalSelfAttention_init n_embd n_head

/-- The `[Block(config) for _ in range(config.n_layer)]` loop of
`DeltaGPT.__init__` (train.py line 295), unrolled by count: each iteration
constructs one identical Block and stops at the first raise. -/
def blocks_init (n_embd n_head : ℕ) : ℕ → Except InitError Unit
  | 0 => .ok ()
  | n + 1 =>
    match block_init n_embd n_head with
    | .ok _ => blocks_init n_embd n_head n
    | .error e => .error e

/-- `DeltaGPT.__init__` (train.py lines 284-304): embeddings, dropout, the
block stack, final LayerNorm and the head.  Torch-level tensor allocation is
not a failure point modelled here, so construction fails exactly when some
Block's attention assert fires. -/
def deltaGPT_init (cfg : ModelConfig) : Except InitError Unit :=
  blocks_init cfg.n_embd cfg.n_head cfg.n_layer

/-! ## Sampling: `DeltaGPT.generate` (train.py lines 346-388)

Float logit vectors may contain `-inf` after filtering, so logits are
`WithBot ℚ`.  The exponential inside softmax is abstracted as a strictly
positive `expQ : ℚ → ℚ` (every fact used by the code is positivity), with
`exp(-inf) = 0`. -/

/-- `exp` extended to `-inf`: `exp(-inf) = 0`. -/
def expW (expQ : ℚ → ℚ) : WithBot ℚ → ℚ :=
  WithBot.recBotCoe 0 expQ

/-- `F.softmax` over a float vector possibly containing `-inf`:
`softmax(x)_i = exp(x_i) / Σ_j exp(x_j)`. -/
def softmax (expQ : ℚ → ℚ) (logits : List (WithBot ℚ)) : List ℚ :=
  logits.map (fun w => expW expQ w / (logits.map (expW expQ)).sum)

/-- `torch.cumsum` with a running prefix `a`. -/
def cumsumFrom (a : ℚ) : List ℚ → List ℚ
  | [] => []
  | x :: xs => (a + x) :: cumsumFrom (a + x) xs

/-- `torch.cumsum(probs, dim=-1)`: inclusive prefix sums. -/
def cumsum (l : List ℚ) : List ℚ := cumsumFrom 0 l

/-- Value comparison used by descending sorts: larger values first. -/
def geW (a b : WithBot ℚ) : Prop := b ≤ a

instance : DecidableRel geW := fun a b => inferInstanceAs (Decidable (b ≤ a))

instance : IsTotal (WithBot ℚ) geW := ⟨fun a b => le_total b a⟩

instance : IsTrans (WithBot ℚ) geW := ⟨fun _ _ _ h1 h2 => le_trans h2 h1⟩

/-- Comparison of index-tagged entries by value, larger first, as
`torch.sort(descending=True)` orders `(value, index)` pairs. -/
def geSnd (a b : ℕ × WithBot ℚ) : Prop := b.2 ≤ a.2

instance : DecidableRel geSnd := fun a b => inferInstanceAs (Decidable (b.2 ≤ a.2))

instance : IsTotal (ℕ × WithBot ℚ) geSnd := ⟨fun a b => le_total b.2 a.2⟩

instance : IsTrans (ℕ × WithBot ℚ) geSnd := ⟨fun _ _ _ h1 h2 => le_trans h2 h1⟩

/-- `torch.sort(logits, descending=True)` keeping the original index of each
entry: `.map Prod.snd` is `sorted_logits`, `.map Prod.fst` is
`sorted_indices`. -/
def sortDesc (logits : List (WithBot ℚ)) : List (ℕ × WithBot ℚ) :=
  List.insertionSort geSnd logits.enum

/-- The logit values sorted descending (what `torch.topk` ranks by). -/
def sortValsDesc (logits : List (WithBot ℚ)) : List (WithBot ℚ) :=
  List.insertionSort geW logits

/-- `torch.topk(logits, k).values[:, [-1]]`: the k-th largest logit
(meaningful for `1 ≤ k ≤ len(logits)`, exactly when torch does not raise). -/
def kthLargest (logits : List (WithBot ℚ)) (k : ℕ) : WithBot ℚ :=
  (sortValsDesc logits).getD (k - 1) ⊥

/-- The top-k filter of `generate` (train.py lines 361-363):
`logits[logits < v[:, [-1]]] = -float('Inf')`. -/
def topkFilter (k : ℕ) (logits : List (WithBot ℚ)) : List (WithBot ℚ) :=
  logits.map (fun l => if l < kthLargest logits k then ⊥ else l)

/-- The mask shift of the nucleus filter (train.py lines 372-373):
`m[..., 1:] = m[..., :-1]; m[..., 0] = 0`. -/
def shiftRight : List Bool → List Bool
  | [] => []
  | b :: bs => false :: (b :: bs).dropLast

/-- The nucleus (top-p) filter of `generate` (train.py lines 365-377): sort
descending remembering indices, cumulative softmax probabilities of the
sorted logits, mark entries whose cumulative probability exceeds `top_p`,
shift the mask right so the first entry crossing the threshold stays (and
slot 0 is always kept), scatter the mask back to original positions
(`m.scatter(1, sorted_indices, m)`, every position being overwritten), and
set the marked logits to `-inf`. -/
def nucleusFilter (expQ : ℚ → ℚ) (top_p : ℚ) (logits : List (WithBot ℚ)) :
    List (WithBot ℚ) :=
  let sp := sortDesc logits
  let sorted_indices := sp.map Prod.fst
  let sorted_logits := sp.map Prod.snd
  let cumulative_probs := cumsum (softmax expQ sorted_logits)
  let sorted_indices_to_remove :=
    shiftRight (cumulative_probs.map (fun c => decide (top_p < c)))
  let indices_to_remove :=
    (sorted_indices.zip sorted_indices_to_remove).foldl
      (fun m jb => m.set jb.1 jb.2) sorted_indices_to_remove
  logits.zipWith (fun l b => if b then (⊥ : WithBot ℚ) else l) indices_to_remove

/-- `torch.multinomial(probs, num_samples=1)` modelled as inverse-CDF
sampling: `u` is the random draw; the first index whose entry absorbs the
remaining mass of `u` is returned, with the last index as fallback, so a
nonempty probability vector always yields one of its own indices. -/
def multinomial : List ℚ → ℚ → ℕ
  | [], _ => 0
  | q :: qs, u =>
    if u < q then 0
    else if qs.isEmpty then 0
    else multinomial qs (u - q) + 1

/-- The optional-sampling arguments of `DeltaGPT.generate`. -/
structure SampleOptions where
  temperature : ℚ := 1
  top_k : Option ℕ := none
  top_p : Option ℚ := none

/-- One sampling step of `DeltaGPT.generate` for one batch row (train.py
lines 350-383): truncate the context to the last `block_size` tokens, take
the forward pass's final-position logits for that row (the transformer acts
on batch rows independently, so `forward` is modelled per-row), divide by
the temperature, optionally apply the top-k filter then the nucleus filter,
softmax, and sample one token id. -/
def generateStep (forward : List ℕ → List ℚ) (block_size : ℕ) (expQ : ℚ → ℚ)
    (opts : SampleOptions) (u : ℚ) (idx : List ℕ) : ℕ :=
  let idx_cond := if idx.length ≤ block_size then idx
    else idx.drop (idx.length - block_size)
  let logits0 : List (WithBot ℚ) :=
    (forward idx_cond).map (fun x => ((x / opts.temperature : ℚ) : WithBot ℚ))
  let logits1 := match opts.top_k with
    | none => logits0
    | some k => topkFilter k logits0
  let logits2 := match opts.top_p with
    | none => logits1
    | some p => nucleusFilter expQ p logits1
  multinomial (softmax expQ logits2) u

/-- `DeltaGPT.generate` (train.py lines 346-388) on a batch of rows: each of
`max_new_tokens` steps appends one sampled token to every row; `u step r` is
the random draw used for row `r` at generation step `step`. -/
def generate (forward : List ℕ → List ℚ) (block_size : ℕ) (expQ : ℚ → ℚ)
    (opts : SampleOptions) (u : ℕ → ℕ → ℚ) (idx : List (List ℕ)) :
    ℕ → List (List ℕ)
  | 0 => idx
  | n + 1 =>
    let idx2 := idx.enum.map (fun ri =>
      ri.2 ++ [generateStep forward block_size expQ opts (u 0 ri.1) ri.2])
    generate forward block_size expQ opts (fun s r => u (s + 1) r) idx2 n

/-- The support size of a filtered logit vector: the number of entries kept
above `-inf` (the categorical distribution sampled from puts positive weight
exactly there). -/
def support (logits : List (WithBot ℚ)) : ℕ :=
  logits.countP (fun l => decide (l ≠ ⊥))

/-- The claim-side reading of "cumulative softmax probability of the set of
tokens whose logits survive the filter": the sum, over positions whose
filtered logit is not `-inf`, of the softmax probability the unfiltered
logits assign to that position. -/
def keptMass (expQ : ℚ → ℚ) (logits masked : List (WithBot ℚ)) : ℚ :=
  ((((softmax expQ logits).zip masked).filter
    (fun q => decide (q.2 ≠ ⊥))).map Prod.fst).sum

/-- Proof auxiliary for the nucleus filter: the probability mass the shifted
removal mask keeps from a tail of the sorted probability vector, given the
cumulative probability `a` accumulated before that tail (an element is kept
iff its predecessor cumulative probability is `≤ top_p`). -/
def keptTail (top_p a : ℚ) : List ℚ → ℚ
  | [] => 0
  | x :: xs => (if top_p < a then 0 else x) + keptTail top_p (a + x) xs

/-! ## C5: `DeltaGPT.configure_optimizers` (train.py lines 390-429)

Parameter and module name strings `"a.b.c"` are modelled as component lists
`["a", "b", "c"]`; PyTorch joins components with `"."`.  Every parameter's
final component is exactly `"weight"` or `"bias"`, so `pn.endswith('bias')` /
`pn.endswith('weight')` coincide with equality of the final component, and a
module's `named_parameters()` (its subtree) coincides with path-prefix
membership. -/

/-- The `nn.Module` classes appearing in the DeltaGPT model tree. -/
inductive MKind where
  | rootM
  | embeddingM
  | dropoutM
  | moduleListM
  | blockM
  | attnM
  | mlpM
  | linearM
  | layerNormM
  | geluM
deriving DecidableEq

/-- One entry of `named_modules()`: module path, module class, and the
parameter names the module owns directly. -/
structure ModEntry where
  path : List String
  kind : MKind
  params : List String
deriving DecidableEq

/-- Parameters of `nn.Linear(..., bias=b)`: a weight, plus a bias iff
enabled.  `nn.LayerNorm(..., bias=b)` owns exactly the same names. -/
def linearParams (bias : Bool) : List String :=
  if bias then ["weight", "bias"] else ["weight"]

/-- The modules contributed by `Block(config)` number `i` of the ModuleList
(train.py lines 266-274 and 184-264): pre-norm, attention with two linear
projections and two dropouts, post-norm, MLP with two linear maps, GELU and
dropout. -/
def blockModules (i : String) (bias : Bool) : List ModEntry :=
  [⟨["blocks", i], .blockM, []⟩,
   ⟨["blocks", i, "ln_1"], .layerNormM, linearParams bias⟩,
   ⟨["blocks", i, "attn"], .attnM, []⟩,
   ⟨["blocks", i, "attn", "c_attn"], .linearM, linearParams bias⟩,
   ⟨["blocks", i, "attn", "c_proj"], .linearM, linearParams bias⟩,
   ⟨["blocks", i, "attn", "attn_dropout"], .dropoutM, []⟩,
   ⟨["blocks", i, "attn", "resid_dropout"], .dropoutM, []⟩,
   ⟨["blocks", i, "ln_2"], .layerNormM, linearParams bias⟩,
   ⟨["blocks", i, "mlp"], .mlpM, []⟩,
   ⟨["blocks", i, "mlp", "c_fc"], .linearM, linearParams bias⟩,
   ⟨["blocks", i, "mlp", "gelu"], .geluM, []⟩,
   ⟨["blocks", i, "mlp", "c_proj"], .linearM, linearParams bias⟩,
   ⟨["blocks", i, "mlp", "dropout"], .dropoutM, []⟩]

/-- `self.named_modules()` for a DeltaGPT model (train.py lines 284-299):
the root, the two embeddings, the embedding dropout, the ModuleList, each
Block's subtree, the final LayerNorm, and the unbiased head.  The `mask`
buffer of the non-flash attention path is a buffer, not a parameter. -/
def namedModules (n_layer : ℕ) (bias : Bool) : List ModEntry :=
  [⟨[], .rootM, []⟩,
   ⟨["tok_emb"], .embeddingM, ["weight"]⟩,
   ⟨["pos_emb"], .embeddingM, ["weight"]⟩,
   ⟨["drop"], .dropoutM, []⟩,
   ⟨["blocks"], .moduleListM, []⟩]
  ++ (List.range n_layer).flatMap (fun i => blockModules (toString i) bias)
  ++ [⟨["ln_f"], .layerNormM, linearParams bias⟩,
      ⟨["head"], .linearM, ["weight"]⟩]

/-- `self.named_parameters()`: every parameter's full path. -/
def namedParameters (n_layer : ℕ) (bias : Bool) : List (List String) :=
  (namedModules n_layer bias).flatMap (fun m => m.params.map (fun p => m.path ++ [p]))

/-- Result of one classification step of the loop in `configure_optimizers`. -/
inductive DecayClass where
  | decay
  | noDecay
  | unclassified
deriving DecidableEq

/-- The classification applied to relative parameter name `pn` at outer
module `m` (train.py lines 404-412): biases never decay; `weight` parameters
decay iff `m` is `nn.Linear` (the whitelist) and are exempt iff `m` is
`nn.LayerNorm` or `nn.Embedding` (the blacklist).  `pn.endswith(...)` is the
final path component `p` here. -/
def classify (mk : MKind) (p : String) : DecayClass :=
  if p = "bias" then .noDecay
  else if p = "weight" ∧ mk = .linearM then .decay
  else if p = "weight" ∧ (mk = .layerNormM ∨ mk = .embeddingM) then .noDecay
  else .unclassified

/-- The `decay` set of `configure_optimizers` (train.py lines 400-409): for
every module `m`, for every parameter of `m`'s subtree (path-prefix
membership), add the full name when the classification says decay. -/
def decaySet (n_layer : ℕ) (bias : Bool) : List (List String) :=
  (namedModules n_layer bias).flatMap (fun m =>
    (namedModules n_layer bias).flatMap (fun m2 =>
      if m.path.isPrefixOf m2.path then
        m2.params.filterMap (fun p =>
          if classify m.kind p = .decay then some (m2.path ++ [p]) else none)
      else []))

/-- The `no_decay` set of `configure_optimizers` (train.py lines 400-412). -/
def noDecaySet (n_layer : ℕ) (bias : Bool) : List (List String) :=
  (namedModules n_layer bias).flatMap (fun m =>
    (namedModules n_layer bias).flatMap (fun m2 =>
      if m.path.isPrefixOf m2.path then
        m2.params.filterMap (fun p =>
          if classify m.kind p = .noDecay then some (m2.path ++ [p]) else none)
      else []))

/-- The two asserts of `configure_optimizers` (train.py lines 416-419): the
intersection must be empty and no parameter may be left out of the union,
else construction raises `AssertionError`. -/
def partitionCheck (decay no_decay params : List (List String)) :
    Except String Unit :=
  if (decay.filter (fun x => decide (x ∈ no_decay))).length ≠ 0 then
    .error "AssertionError: parameters made it into both decay and no_decay sets"
  else if (params.filter (fun x => decide (x ∉ decay ∧ x ∉ no_decay))).length ≠ 0 then
    .error "AssertionError: parameters were not separated into either set"
  else
    .ok ()

/-- `DeltaGPT.configure_optimizers` (train.py lines 390-429): build the two
sets, verify the partition fatally, and hand the two parameter groups
(decay-coefficient-bearing and exempt) to AdamW. -/
def configure_optimizers (n_layer : ℕ) (bias : Bool) :
    Except String (List (List String) × List (List String)) :=
  match partitionCheck (decaySet n_layer bias) (noDecaySet n_layer bias)
    (namedParameters n_layer bias) with
  | .error e => .error e
  | .ok _ => .ok (decaySet n_layer bias, noDecaySet n_layer bias)

/-- The classification-relevant module entries of the model (the ones that
own parameters, equivalently the ones whose class is Linear, LayerNorm or
Embedding): used to enumerate cases in the partition proof. -/
def WShape (n_layer : ℕ) (bias : Bool) (e : ModEntry) : Prop :=
  e = ⟨["tok_emb"], .embeddingM, ["weight"]⟩ ∨
  e = ⟨["pos_emb"], .embeddingM, ["weight"]⟩ ∨
  e = ⟨["ln_f"], .layerNormM, linearParams bias⟩ ∨
  e = ⟨["head"], .linearM, ["weight"]⟩ ∨
  ∃ s : String, (∃ i < n_layer, s = toString i) ∧
    (e = ⟨["blocks", s, "ln_1"], .layerNormM, linearParams bias⟩ ∨
     e = ⟨["blocks", s, "ln_2"], .layerNormM, linearParams bias⟩ ∨
     e = ⟨["blocks", s, "attn", "c_attn"], .linearM, linearParams bias⟩ ∨
     e = ⟨["blocks", s, "attn", "c_proj"], .linearM, linearParams bias⟩ ∨
     e = ⟨["blocks", s, "mlp", "c_fc"], .linearM, linearParams bias⟩ ∨
     e = ⟨["blocks", s, "mlp", "c_proj"], .linearM, linearParams bias⟩)

/-! ## C4: `get_cosine_lr_schedule` (train.py lines 431-445) -/

noncomputable section

/-- The `lr_lambda` closure built by `get_cosine_lr_schedule` (train.py lines
435-443): below `warmup_iters` the multiplier is `step / max(1, warmup_iters)`;
at or beyond warmup it is `min_lr + coeff * (1 - min_lr)` with
`coeff = 0.5 * (1 + cos(pi * decay_ratio))` and
`decay_ratio = min(1, (step - warmup_iters) / max(1, lr_decay_iters - warmup_iters))`
(all subtractions happen on the non-negative side, so ℕ subtraction agrees
with Python's). -/
def lr_lambda (warmup_iters lr_decay_iters : ℕ) (min_lr : ℝ) (step : ℕ) : ℝ :=
  if step < warmup_iters then (step : ℝ) / ((max 1 warmup_iters : ℕ) : ℝ)
  else
    min_lr + 1 / 2 * (1 + Real.cos (Real.pi *
      min 1 (((step - warmup_iters : ℕ) : ℝ) /
        ((max 1 (lr_decay_iters - warmup_iters) : ℕ) : ℝ)))) * (1 - min_lr)

end

/-! ## Theorems -/

theorem padTrunc_length (tokens : List ℕ) (bs : ℕ) :
    (padTrunc tokens bs).length = bs := by
  unfold padTrunc
  split
  · simp; omega
  · split
    · simp; omega
    · omega

/-- C10: for every stored token list, `__getitem__` first truncates to
`block_size` or zero-pads up to `block_size`, then returns `x` = the first
`block_size - 1` tokens and `y` = the last `block_size - 1` tokens, each of
length `block_size - 1`, and `y[i] = x[i+1]` for every `i < block_size - 2`
(lengths in ℕ, so `block_size - 1` is the truncated subtraction). -/
theorem getitem_shapes (tokens : List ℕ) (block_size : ℕ) :
    (getitem tokens block_size).1 = (padTrunc tokens block_size).take (block_size - 1) ∧
    (getitem tokens block_size).2 = (padTrunc tokens block_size).drop 1 ∧
    (getitem tokens block_size).1.length = block_size - 1 ∧
    (getitem tokens block_size).2.length = block_size - 1 ∧
    ∀ i : ℕ, i < block_size - 2 →
      (getitem tokens block_size).2[i]? = (getitem tokens block_size).1[i + 1]? := by
  have hlen : (padTrunc tokens block_size).length = block_size :=
    padTrunc_length tokens block_size
  unfold getitem
  refine ⟨?_, ?_, ?_, ?_, ?_⟩
  · simp [List.dropLast_eq_take, hlen]
  · simp [List.drop_one]
  · simp [hlen]
  · simp [hlen]
  · intro i hi
    simp only
    rw [← List.drop_one, List.getElem?_drop, List.dropLast_eq_take, List.getElem?_take,
      if_pos (by omega), Nat.add_comm 1 i]

/-- C7: with a rank variable present and world size `W > 1`,
`setup_distributed` replaces the configured gradient-accumulation factor `a`
by `⌊a / W⌋` floored at a minimum of 1 (it is rescaled exactly once, at
setup; no other field of the setup depends on `a`). -/
theorem setup_distributed_rescales_accumulation
    (env : DistEnv) (a W : ℕ)
    (hpresent : env.rankPresent = true) (hW : env.worldSize = W) (_hW1 : 1 < W) :
    (setup_distributed env a).gradient_accumulation_steps = max 1 (a / W) := by
  unfold setup_distributed
  rw [hpresent]
  simp only [Bool.true_eq_false, if_false, hW]
  split <;> omega

theorem setup_distributed_rescales_accumulation_witness :
    (setup_distributed ⟨true, 1, 1, 4⟩ 8).gradient_accumulation_steps = max 1 (8 / 4) :=
  setup_distributed_rescales_accumulation ⟨true, 1, 1, 4⟩ 8 4 rfl rfl (by decide)

/-- C9: whenever the checkpoint-load attempt fails, `load_checkpoint` catches
the failure and falls back to a fresh run: iteration counter 0 and best
validation loss `inf` (`⊤`).  The function is total (its result type is a
plain state, not an `Except`), so no load failure propagates as fatal. -/
theorem load_checkpoint_failure_fallback
    (attempt : Except String CheckpointData) (e : String)
    (herr : attempt = .error e) :
    load_checkpoint attempt = { iter_num := 0, best_val_loss := ⊤ } := by
  rw [herr]
  rfl

theorem load_checkpoint_failure_fallback_witness :
    load_checkpoint (.error "corrupt checkpoint") = { iter_num := 0, best_val_loss := ⊤ } :=
  load_checkpoint_failure_fallback (.error "corrupt checkpoint") "corrupt checkpoint" rfl

/-- C8 (code bug): with 2 ranks each holding the local validation losses
`[1, 1]`, the cross-replica average is 1, but rank 0 of `Trainer.evaluate`
returns 1/2: the code divides the elementwise-summed loss vector by
`world_size * len(val_losses)` and then averages the `len(val_losses)`
entries again, dividing by the local batch count twice. -/
theorem evaluate_rank0_not_cross_average :
    evaluate_rank0 [[1, 1], [1, 1]] = 1 / 2 ∧
    crossReplicaAverage [[1, 1], [1, 1]] = 1 := by
  constructor <;> norm_num [evaluate_rank0, crossReplicaAverage, reduceSum]

/-- C6 (counterexample): with `n_layer = 0`, `n_head = 5`, `n_embd = 7`,
construction succeeds even though the embedding width is not divisible by the
head count — no Block (hence no `CausalSelfAttention`) is ever constructed,
so the divisibility assert never runs. -/
theorem deltaGPT_init_zero_layers_succeeds :
    deltaGPT_init { n_layer := 0, n_head := 5, n_embd := 7 } = .ok () ∧
    ¬ (5 ∣ 7) := by
  constructor
  · rfl
  · decide

theorem blocks_init_ok (ne nh : ℕ) (h : block_init ne nh = .ok ()) :
    ∀ n, blocks_init ne nh n = .ok () := by
  intro n
  induction n with
  | zero => rfl
  | succ n ih => simp [blocks_init, h, ih]

theorem blocks_init_error (ne nh : ℕ) (e : InitError)
    (h : block_init ne nh = .error e) :
    ∀ n, 1 ≤ n → blocks_init ne nh n = .error e := by
  intro n hn
  obtain ⟨m, rfl⟩ : ∃ m, n = m + 1 := ⟨n - 1, by omega⟩
  simp [blocks_init, h]

/-- C6 (amended): construction of `DeltaGPT` fails iff at least one Block is
constructed (`n_layer ≥ 1`) and the attention assert line raises — that is,
the head count is zero (Python `%` by zero) or the embedding width is not
evenly divisible by the head count. -/
theorem deltaGPT_init_fails_iff (cfg : ModelConfig) :
    (∃ e, deltaGPT_init cfg = .error e) ↔
      (1 ≤ cfg.n_layer ∧ (cfg.n_head = 0 ∨ cfg.n_embd % cfg.n_head ≠ 0)) := by
  unfold deltaGPT_init
  by_cases hbad : cfg.n_head = 0 ∨ cfg.n_embd % cfg.n_head ≠ 0
  · have hblock : ∃ e, block_init cfg.n_embd cfg.n_head = .error e := by
      unfold block_init causalSelfAttention_init
      by_cases h0 : cfg.n_head = 0
      · exact ⟨.zeroDivision, by simp [h0]⟩
      · have hmod : cfg.n_embd % cfg.n_head ≠ 0 := by
          rcases hbad with h | h
          · exact absurd h h0
          · exact h
        exact ⟨.assertionError, by simp [h0, hmod]⟩
    obtain ⟨e, he⟩ := hblock
    constructor
    · intro ⟨e2, he2⟩
      refine ⟨?_, hbad⟩
      by_contra h0
      have : cfg.n_layer = 0 := by omega
      rw [this] at he2
      exact Except.noConfusion he2
    · intro ⟨hn, _⟩
      exact ⟨e, blocks_init_error _ _ e he _ hn⟩
  · push_neg at hbad
    have hblock : block_init cfg.n_embd cfg.n_head = .ok () := by
      unfold block_init causalSelfAttention_init
      simp [hbad.1, hbad.2]
    constructor
    · intro ⟨e, he⟩
      rw [blocks_init_ok _ _ hblock] at he
      exact Except.noConfusion he
    · intro ⟨_, h⟩
      exact absurd h (by push_neg; exact hbad)

theorem lr_lambda_post_warmup (warmup_iters lr_decay_iters : ℕ) (min_lr : ℝ) :
    ∀ s : ℕ, warmup_iters ≤ s →
      lr_lambda warmup_iters lr_decay_iters min_lr s =
        min_lr + 1 / 2 * (1 + Real.cos (Real.pi *
          min 1 (((s - warmup_iters : ℕ) : ℝ) /
            ((max 1 (lr_decay_iters - warmup_iters) : ℕ) : ℝ)))) * (1 - min_lr) := by
  intro s hs
  unfold lr_lambda
  rw [if_neg (Nat.not_lt.mpr hs)]

/-- C4: for the multiplier built by `get_cosine_lr_schedule`, with `min_lr`
read as a fraction of the base rate (`min_lr ≤ 1`): the multiplier at step 0
is 0 whenever `warmup_iters > 0`; the multiplier is non-increasing on steps
`≥ warmup_iters`; and the post-warmup value is
`min_lr + 0.5 * (1 + cos(pi * r)) * (1 - min_lr)` with
`r = (step - warmup) / max(1, decay - warmup)` clamped to `[0, 1]`. -/
theorem lr_lambda_claims (warmup_iters lr_decay_iters : ℕ) (min_lr : ℝ)
    (hmin : min_lr ≤ 1) :
    (0 < warmup_iters → lr_lambda warmup_iters lr_decay_iters min_lr 0 = 0) ∧
    (∀ s1 s2 : ℕ, warmup_iters ≤ s1 → s1 ≤ s2 →
      lr_lambda warmup_iters lr_decay_iters min_lr s2 ≤
        lr_lambda warmup_iters lr_decay_iters min_lr s1) ∧
    (∀ s : ℕ, warmup_iters ≤ s →
      lr_lambda warmup_iters lr_decay_iters min_lr s =
        min_lr + 1 / 2 * (1 + Real.cos (Real.pi *
          (max 0 (min 1 (((s - warmup_iters : ℕ) : ℝ) /
            ((max 1 (lr_decay_iters - warmup_iters) : ℕ) : ℝ)))))) * (1 - min_lr)) := by
  refine ⟨?_, ?_, ?_⟩
  · intro hw
    unfold lr_lambda
    rw [if_pos hw]
    simp
  · intro s1 s2 h1 h2
    rw [lr_lambda_post_warmup _ _ _ s1 h1, lr_lambda_post_warmup _ _ _ s2 (h1.trans h2)]
    have hD : (0 : ℝ) < ((max 1 (lr_decay_iters - warmup_iters) : ℕ) : ℝ) :=
      Nat.cast_pos.mpr (by omega)
    have ha : ((s1 - warmup_iters : ℕ) : ℝ) ≤ ((s2 - warmup_iters : ℕ) : ℝ) := by
      exact_mod_cast Nat.sub_le_sub_right h2 warmup_iters
    have hr1nonneg : (0 : ℝ) ≤ min 1 (((s1 - warmup_iters : ℕ) : ℝ) /
        ((max 1 (lr_decay_iters - warmup_iters) : ℕ) : ℝ)) :=
      le_min zero_le_one (div_nonneg (Nat.cast_nonneg _) hD.le)
    have hr2le1 : min 1 (((s2 - warmup_iters : ℕ) : ℝ) /
        ((max 1 (lr_decay_iters - warmup_iters) : ℕ) : ℝ)) ≤ 1 :=
      min_le_left _ _
    have hr12 : min 1 (((s1 - warmup_iters : ℕ) : ℝ) /
          ((max 1 (lr_decay_iters - warmup_iters) : ℕ) : ℝ)) ≤
        min 1 (((s2 - warmup_iters : ℕ) : ℝ) /
          ((max 1 (lr_decay_iters - warmup_iters) : ℕ) : ℝ)) :=
      min_le_min le_rfl ((div_le_div_iff_of_pos_right hD).mpr ha)
    have hcos : Real.cos (Real.pi * min 1 (((s2 - warmup_iters : ℕ) : ℝ) /
          ((max 1 (lr_decay_iters - warmup_iters) : ℕ) : ℝ))) ≤
        Real.cos (Real.pi * min 1 (((s1 - warmup_iters : ℕ) : ℝ) /
          ((max 1 (lr_decay_iters - warmup_iters) : ℕ) : ℝ))) :=
      Real.cos_le_cos_of_nonneg_of_le_pi (mul_nonneg Real.pi_pos.le hr1nonneg)
        (mul_le_of_le_one_right Real.pi_pos.le hr2le1)
        (mul_le_mul_of_nonneg_left hr12 Real.pi_pos.le)
    have hfac : (0 : ℝ) ≤ 1 - min_lr := by linarith
    nlinarith [mul_le_mul_of_nonneg_right hcos hfac]
  · intro s hs
    rw [lr_lambda_post_warmup _ _ _ s hs]
    have hclamp : max 0 (min 1 (((s - warmup_iters : ℕ) : ℝ) /
          ((max 1 (lr_decay_iters - warmup_iters) : ℕ) : ℝ))) =
        min 1 (((s - warmup_iters : ℕ) : ℝ) /
          ((max 1 (lr_decay_iters - warmup_iters) : ℕ) : ℝ)) :=
      max_eq_right (le_min zero_le_one (div_nonneg (Nat.cast_nonneg _)
        (Nat.cast_nonneg _)))
    rw [hclamp]

theorem lr_lambda_claims_witness :
    lr_lambda 10 100 (1 / 10) 20 ≤ lr_lambda 10 100 (1 / 10) 15 :=
  (lr_lambda_claims 10 100 (1 / 10) (by norm_num)).2.1 15 20 (by norm_num) (by norm_num)

theorem countP_sorted_nodup (l : List (WithBot ℚ))
    (hs : l.Sorted geW) (hn : l.Nodup) :
    ∀ i (h : i < l.length),
      l.countP (fun x => decide (l.get ⟨i, h⟩ ≤ x)) = i + 1 := by
  induction l with
  | nil => intro i h; simp at h
  | cons a l ih =>
    intro i h
    obtain ⟨hrel, hstail⟩ := List.sorted_cons.mp hs
    obtain ⟨hmem, hntail⟩ := List.nodup_cons.mp hn
    cases i with
    | zero =>
      simp only [List.get]
      rw [List.countP_cons, if_pos (by simp)]
      have hz : l.countP (fun x => decide (a ≤ x)) = 0 := by
        rw [List.countP_eq_zero]
        intro x hx
        simp only [decide_eq_true_eq]
        intro hax
        exact hmem (by rwa [le_antisymm (hrel x hx) hax] at hx)
      rw [hz]
    | succ i =>
      simp only [List.get]
      rw [List.countP_cons]
      have ht : l.get ⟨i, by simpa using h⟩ ≤ a :=
        hrel _ (List.get_mem l i _)
      rw [if_pos (by simpa using ht), ih hstail hntail i (by simpa using h)]

/-- C3 (counterexample): with the logits `[1, 1, 1]` and `top_k = 2`, the
threshold `v[:, [-1]]` is the second-largest value 1, no logit is strictly
below it, and the filter keeps all three entries: more than `K` logits stay
above `-inf`. -/
theorem topk_ties_keep_more_than_k :
    2 < support (topkFilter 2 [(1 : WithBot ℚ), 1, 1]) := by decide

/-- C3 (amended): with `top_k = K` active (`1 ≤ K ≤ len(logits)`), the
filter keeps exactly the entries `≥` the K-th largest value; provided the
logits are pairwise distinct, at most `K` of them stay above `-inf` (with
ties at the K-th largest value, more than `K` can survive). -/
theorem topkFilter_support_le (logits : List (WithBot ℚ)) (k : ℕ)
    (hnodup : logits.Nodup) (hk1 : 1 ≤ k) (hklen : k ≤ logits.length) :
    support (topkFilter k logits) ≤ k := by
  have hperm := List.perm_insertionSort geW logits
  have hlen : (sortValsDesc logits).length = logits.length := hperm.length_eq
  have hidx : k - 1 < (sortValsDesc logits).length := by omega
  have hkth : kthLargest logits k = (sortValsDesc logits).get ⟨k - 1, hidx⟩ := by
    unfold kthLargest
    rw [List.getD_eq_getElem _ _ hidx]
    simp
  have hsorted : (sortValsDesc logits).Sorted geW :=
    List.sorted_insertionSort geW logits
  have hnd : (sortValsDesc logits).Nodup := hperm.nodup_iff.mpr hnodup
  have hcount := countP_sorted_nodup _ hsorted hnd (k - 1) hidx
  have h1 : support (topkFilter k logits) ≤
      logits.countP (fun x => decide (kthLargest logits k ≤ x)) := by
    unfold support topkFilter
    rw [List.countP_map]
    apply List.countP_mono_left
    intro x _
    simp only [Function.comp, decide_eq_true_eq]
    intro hne
    by_cases hlt : x < kthLargest logits k
    · simp [hlt] at hne
    · exact le_of_not_lt hlt
  have h2 : logits.countP (fun x => decide (kthLargest logits k ≤ x)) =
      (sortValsDesc logits).countP (fun x => decide (kthLargest logits k ≤ x)) :=
    (hperm.countP_eq _).symm
  rw [hkth] at h1 h2
  omega

theorem topkFilter_support_le_witness :
    support (topkFilter 2 [(3 : WithBot ℚ), 1, 2]) ≤ 2 :=
  topkFilter_support_le [(3 : WithBot ℚ), 1, 2] 2 (by decide) (by decide) (by decide)

theorem multinomial_lt (ps : List ℚ) (u : ℚ) (h : ps ≠ []) :
    multinomial ps u < ps.length := by
  induction ps generalizing u with
  | nil => simp at h
  | cons q qs ih =>
    simp only [multinomial]
    split
    · simp
    · split
      · simp
      · next hemp =>
        have hqs : qs ≠ [] := by
          intro hq
          rw [hq] at hemp
          simp at hemp
        have := ih (u - q) hqs
        simp only [List.length_cons]
        omega

theorem softmax_length (expQ : ℚ → ℚ) (l : List (WithBot ℚ)) :
    (softmax expQ l).length = l.length := by
  simp [softmax]

theorem cumsumFrom_length (a : ℚ) (l : List ℚ) :
    (cumsumFrom a l).length = l.length := by
  induction l generalizing a with
  | nil => rfl
  | cons x xs ih => simp [cumsumFrom, ih]

theorem shiftRight_length (l : List Bool) : (shiftRight l).length = l.length := by
  cases l with
  | nil => rfl
  | cons b bs => simp [shiftRight]

theorem foldl_set_length (kvs : List (ℕ × Bool)) (m : List Bool) :
    (kvs.foldl (fun m jb => m.set jb.1 jb.2) m).length = m.length := by
  induction kvs generalizing m with
  | nil => rfl
  | cons kv kvs ih => simp [ih, List.length_set]

theorem sortDesc_length (l : List (WithBot ℚ)) :
    (sortDesc l).length = l.length := by
  unfold sortDesc
  rw [(List.perm_insertionSort geSnd l.enum).length_eq, List.enum_length]

theorem topkFilter_length (k : ℕ) (l : List (WithBot ℚ)) :
    (topkFilter k l).length = l.length := by
  simp [topkFilter]

theorem nucleusFilter_length (expQ : ℚ → ℚ) (p : ℚ) (l : List (WithBot ℚ)) :
    (nucleusFilter expQ p l).length = l.length := by
  unfold nucleusFilter
  simp only [List.length_zipWith, foldl_set_length, shiftRight_length,
    List.length_map, cumsum, cumsumFrom_length, softmax_length, sortDesc_length]
  omega

theorem generateStep_lt (forward : List ℕ → List ℚ) (block_size vocab_size : ℕ)
    (expQ : ℚ → ℚ) (opts : SampleOptions) (u : ℚ) (idx : List ℕ)
    (hV : 0 < vocab_size) (hf : ∀ ctx, (forward ctx).length = vocab_size) :
    generateStep forward block_size expQ opts u idx < vocab_size := by
  have hmult : ∀ ps : List ℚ, ps.length = vocab_size → multinomial ps u < vocab_size := by
    intro ps hps
    have hne : ps ≠ [] := by
      intro hnil
      rw [hnil] at hps
      simp at hps
      omega
    have := multinomial_lt ps u hne
    omega
  unfold generateStep
  apply hmult
  rcases opts with ⟨temp, tk, tp⟩
  rcases tk with _ | k <;> rcases tp with _ | p <;>
    simp [softmax_length, nucleusFilter_length, topkFilter_length, hf]

/-- C1: for every seed batch `idx` of rows with tokens in `[0, vocab_size)`
and every requested count `k ≥ 0`, `DeltaGPT.generate` keeps the batch size,
returns each row extended by exactly `k` tokens (length `T + k`), and every
newly sampled token id lies in `[0, vocab_size)` — for any temperature,
top-k/top-p options, random draws, and any forward function producing
`vocab_size` logits (as the model head does). -/
theorem generate_shape_and_range
    (forward : List ℕ → List ℚ) (block_size vocab_size : ℕ) (expQ : ℚ → ℚ)
    (opts : SampleOptions) (u : ℕ → ℕ → ℚ) (idx : List (List ℕ)) (k : ℕ)
    (hV : 0 < vocab_size)
    (hf : ∀ ctx, (forward ctx).length = vocab_size)
    (hseed : ∀ row ∈ idx, ∀ t ∈ row, t < vocab_size) :
    (generate forward block_size expQ opts u idx k).length = idx.length ∧
    ∀ r (hr : r < idx.length),
      ∃ ext : List ℕ,
        (generate forward block_size expQ opts u idx k)[r]? = some (idx[r] ++ ext) ∧
        ext.length = k ∧ ∀ t ∈ ext, t < vocab_size := by
  induction k generalizing u idx with
  | zero =>
    refine ⟨rfl, fun r hr => ⟨[], ?_, rfl, by simp⟩⟩
    simp [generate, List.getElem?_eq_getElem hr]
  | succ n ih =>
    simp only [generate]
    set idx2 := idx.enum.map (fun ri =>
      ri.2 ++ [generateStep forward block_size expQ opts (u 0 ri.1) ri.2]) with hidx2
    have hlen2 : idx2.length = idx.length := by
      rw [hidx2, List.length_map, List.enum_length]
    have hseed2 : ∀ row ∈ idx2, ∀ t ∈ row, t < vocab_size := by
      intro row hrow t ht
      rw [hidx2, List.mem_map] at hrow
      obtain ⟨ri, hri, rfl⟩ := hrow
      rcases List.mem_append.mp ht with h | h
      · have hmem : ri.2 ∈ idx := by
          have := List.mem_map_of_mem Prod.snd hri
          rwa [List.enum_map_snd] at this
        exact hseed ri.2 hmem t h
      · rw [List.mem_singleton] at h
        subst h
        exact generateStep_lt forward block_size vocab_size expQ opts _ _ hV hf
    obtain ⟨hL, hR⟩ := ih (fun s r => u (s + 1) r) idx2 hseed2
    refine ⟨by rw [hL, hlen2], ?_⟩
    intro r hr
    obtain ⟨ext, hext, hlenext, hmemext⟩ := hR r (by omega)
    have hr2 : r < idx2.length := by omega
    have h2r : idx2[r] =
        idx[r] ++ [generateStep forward block_size expQ opts (u 0 r) idx[r]] := by
      have hq : idx2[r]? = some (idx[r] ++
          [generateStep forward block_size expQ opts (u 0 r) idx[r]]) := by
        rw [hidx2]
        simp [List.getElem?_enum, List.getElem?_eq_getElem hr]
      rw [List.getElem?_eq_getElem hr2] at hq
      exact Option.some.inj hq
    refine ⟨generateStep forward block_size expQ opts (u 0 r) idx[r] :: ext, ?_, by
      simp [hlenext], ?_⟩
    · rw [hext, h2r]
      simp
    · intro t ht
      rcases List.mem_cons.mp ht with h | h
      · subst h
        exact generateStep_lt forward block_size vocab_size expQ opts _ _ hV hf
      · exact hmemext t h

theorem generate_shape_and_range_witness :
    (0 : ℕ) < 4 ∧
    (generate (fun _ => [0, 0, 0, 0]) 8 (fun _ => 1) {} (fun _ _ => 1/2)
      [[1, 2]] 3).length = 1 :=
  ⟨by decide,
    (generate_shape_and_range (fun _ => [0, 0, 0, 0]) 8 4 (fun _ => 1) {}
      (fun _ _ => 1/2) [[1, 2]] 3 (by decide) (fun _ => rfl)
      (by intro row hrow t ht; fin_cases hrow; fin_cases ht <;> decide)).1⟩

theorem expW_bot (expQ : ℚ → ℚ) : expW expQ ⊥ = 0 := rfl

theorem expW_nonneg (expQ : ℚ → ℚ) (hexp : ∀ x, 0 < expQ x) (w : WithBot ℚ) :
    0 ≤ expW expQ w := by
  induction w using WithBot.recBotCoe with
  | bot => exact le_refl 0
  | coe x => exact (hexp x).le

theorem list_div_sum (l : List ℚ) (S : ℚ) :
    (l.map (fun x => x / S)).sum = l.sum / S := by
  induction l with
  | nil => simp
  | cons x xs ih => simp [ih, add_div]

theorem sum_pos_of_mem_pos (l : List ℚ) (hnn : ∀ x ∈ l, 0 ≤ x)
    (hex : ∃ x ∈ l, 0 < x) : 0 < l.sum := by
  induction l with
  | nil =>
    obtain ⟨x, hx, _⟩ := hex
    simp at hx
  | cons a l ih =>
    rw [List.sum_cons]
    obtain ⟨x, hx, hpos⟩ := hex
    rcases List.mem_cons.mp hx with rfl | hmem
    · have := List.sum_nonneg (fun y hy => hnn y (List.mem_cons_of_mem _ hy))
      linarith
    · have h1 := ih (fun y hy => hnn y (List.mem_cons_of_mem _ hy)) ⟨x, hmem, hpos⟩
      have h2 := hnn a (List.mem_cons_self a l)
      linarith

theorem keptTail_nonneg (top_p : ℚ) (xs : List ℚ) :
    ∀ a, (∀ x ∈ xs, 0 ≤ x) → 0 ≤ keptTail top_p a xs := by
  induction xs with
  | nil => intro a _; simp [keptTail]
  | cons x xs ih =>
    intro a h
    have hx := h x (List.mem_cons_self x xs)
    have ht := ih (a + x) (fun y hy => h y (List.mem_cons_of_mem _ hy))
    simp only [keptTail]
    split <;> linarith

theorem keptTail_ge (top_p : ℚ) (xs : List ℚ) :
    ∀ a, (∀ x ∈ xs, 0 ≤ x) → a + xs.sum = 1 →
      min top_p 1 - a ≤ keptTail top_p a xs := by
  induction xs with
  | nil =>
    intro a _ hsum
    simp only [List.sum_nil, add_zero] at hsum
    subst hsum
    simp only [keptTail]
    have := min_le_right top_p 1
    linarith
  | cons x xs ih =>
    intro a hnn hsum
    rw [List.sum_cons] at hsum
    simp only [keptTail]
    by_cases hpa : top_p < a
    · rw [if_pos hpa]
      have h0 := keptTail_nonneg top_p xs (a + x)
        (fun y hy => hnn y (List.mem_cons_of_mem _ hy))
      have := min_le_left top_p 1
      linarith
    · rw [if_neg hpa]
      have := ih (a + x) (fun y hy => hnn y (List.mem_cons_of_mem _ hy))
        (by linarith)
      linarith

theorem zip_shift_tail (top_p : ℚ) (xs : List ℚ) :
    ∀ a : ℚ,
      (List.zipWith (fun x b => if b then 0 else x) xs
        ((decide (top_p < a) ::
          (cumsumFrom a xs).map (fun c => decide (top_p < c))).dropLast)).sum
        = keptTail top_p a xs := by
  induction xs with
  | nil => intro a; simp [keptTail]
  | cons x xs ih =>
    intro a
    simp only [cumsumFrom, List.map_cons, List.dropLast_cons₂,
      List.zipWith_cons_cons, List.sum_cons, keptTail]
    rw [ih (a + x)]
    by_cases h : top_p < a
    · simp [h]
    · simp [h]

theorem kept_prob_ge (top_p : ℚ) (hp : top_p ≤ 1) (qs : List ℚ)
    (hnn : ∀ x ∈ qs, 0 ≤ x) (hsum : qs.sum = 1) (hne : qs ≠ []) :
    top_p ≤ (List.zipWith (fun x b => if b then 0 else x) qs
      (shiftRight ((cumsum qs).map (fun c => decide (top_p < c))))).sum := by
  obtain ⟨q, rest, rfl⟩ := List.exists_cons_of_ne_nil hne
  rw [List.sum_cons] at hsum
  have hq : 0 ≤ q := hnn q (List.mem_cons_self q rest)
  simp only [cumsum, cumsumFrom, List.map_cons, shiftRight, zero_add,
    List.zipWith_cons_cons, List.sum_cons, Bool.false_eq_true, if_false]
  rw [zip_shift_tail top_p rest q]
  have := keptTail_ge top_p rest q
    (fun y hy => hnn y (List.mem_cons_of_mem _ hy)) (by linarith)
  have hminp : min top_p 1 = top_p := min_eq_left hp
  linarith

theorem foldl_set_getElem_of_not_mem (kvs : List (ℕ × Bool)) (j : ℕ)
    (h : ∀ kv ∈ kvs, kv.1 ≠ j) :
    ∀ m : List Bool, (kvs.foldl (fun m jb => m.set jb.1 jb.2) m)[j]? = m[j]? := by
  induction kvs with
  | nil => intro m; rfl
  | cons kv kvs ih =>
    intro m
    simp only [List.foldl_cons]
    rw [ih (fun kv2 h2 => h kv2 (List.mem_cons_of_mem _ h2)) _]
    exact List.getElem?_set_ne (h kv (List.mem_cons_self kv kvs))

theorem foldl_set_getElem_of_mem (kvs : List (ℕ × Bool)) (j : ℕ) (b : Bool) :
    ∀ m : List Bool, (kvs.map Prod.fst).Nodup → (j, b) ∈ kvs → j < m.length →
      (kvs.foldl (fun m jb => m.set jb.1 jb.2) m)[j]? = some b := by
  induction kvs with
  | nil => intro m _ hmem _; simp at hmem
  | cons kv kvs ih =>
    obtain ⟨k1, k2⟩ := kv
    intro m hnd hmem hj
    simp only [List.map_cons, List.nodup_cons] at hnd
    obtain ⟨hhead, hndtail⟩ := hnd
    simp only [List.foldl_cons]
    rcases List.mem_cons.mp hmem with heq | hmem2
    · obtain ⟨rfl, rfl⟩ := Prod.mk.injEq .. |>.mp heq
      have hrest : ∀ kv2 ∈ kvs, kv2.1 ≠ j := by
        intro kv2 h2 hj2
        apply hhead
        rw [← hj2]
        exact List.mem_map_of_mem Prod.fst h2
      rw [foldl_set_getElem_of_not_mem kvs j hrest]
      exact List.getElem?_set_self (by simpa using hj)
    · exact ih _ hndtail hmem2 (by simpa [List.length_set] using hj)

/-- The nucleus filter with its intermediate tensors written out (pure
unfolding of the definition). -/
theorem nucleusFilter_eq (expQ : ℚ → ℚ) (top_p : ℚ) (logits : List (WithBot ℚ)) :
    nucleusFilter expQ top_p logits =
      logits.zipWith (fun l b => if b then (⊥ : WithBot ℚ) else l)
        ((((sortDesc logits).map Prod.fst).zip
            (shiftRight
              ((cumsum (softmax expQ ((sortDesc logits).map Prod.snd))).map
                (fun c => decide (top_p < c))))).foldl
          (fun m jb => m.set jb.1 jb.2)
          (shiftRight
            ((cumsum (softmax expQ ((sortDesc logits).map Prod.snd))).map
              (fun c => decide (top_p < c))))) := rfl

theorem forall₂_mask (L : List (WithBot ℚ)) :
    ∀ B : List Bool, L.length = B.length →
      List.Forall₂ (fun l m => m = ⊥ ∨ m = l) L
        (L.zipWith (fun l b => if b then (⊥ : WithBot ℚ) else l) B) := by
  induction L with
  | nil =>
    intro B _
    exact List.Forall₂.nil
  | cons l L ih =>
    intro B h
    cases B with
    | nil => simp at h
    | cons b B2 =>
      rw [List.zipWith_cons_cons]
      refine List.Forall₂.cons ?_ (ih B2 (by simpa using h))
      cases b
      · exact Or.inr rfl
      · exact Or.inl rfl

theorem masked_forall₂ (expQ : ℚ → ℚ) (top_p : ℚ) (logits : List (WithBot ℚ)) :
    List.Forall₂ (fun l m => m = ⊥ ∨ m = l) logits
      (nucleusFilter expQ top_p logits) := by
  rw [nucleusFilter_eq]
  apply forall₂_mask
  rw [foldl_set_length, shiftRight_length, List.length_map, cumsum,
    cumsumFrom_length, softmax_length, List.length_map, sortDesc_length]

theorem keptMass_filter_sum (expQ : ℚ → ℚ) (S : ℚ) (L M : List (WithBot ℚ))
    (h : List.Forall₂ (fun l m => m = ⊥ ∨ m = l) L M) :
    ((((L.map (fun w => expW expQ w / S)).zip M).filter
      (fun q => decide (q.2 ≠ ⊥))).map Prod.fst).sum
      = (M.map (fun w => expW expQ w / S)).sum := by
  induction h with
  | nil => simp
  | @cons l m L2 M2 hrel _ ih =>
    simp only [ne_eq, decide_not] at ih ⊢
    simp only [List.map_cons, List.zip_cons_cons, List.filter_cons]
    rcases hrel with hm | hm
    · rw [hm]
      simp [ih, expW_bot]
    · rw [hm]
      by_cases hb : l = (⊥ : WithBot ℚ)
      · rw [hb]
        simp [ih, expW_bot]
      · simp [hb, ih]

theorem sortDesc_perm (logits : List (WithBot ℚ)) :
    (sortDesc logits).Perm logits.enum :=
  List.perm_insertionSort geSnd logits.enum

theorem sortDesc_sorted (logits : List (WithBot ℚ)) :
    (sortDesc logits).Sorted geSnd :=
  List.sorted_insertionSort geSnd logits.enum

theorem sortDesc_keys_perm (logits : List (WithBot ℚ)) :
    ((sortDesc logits).map Prod.fst).Perm (List.range logits.length) := by
  have h := (sortDesc_perm logits).map Prod.fst
  rwa [List.enum_map_fst] at h

theorem sortDesc_keys_nodup (logits : List (WithBot ℚ)) :
    ((sortDesc logits).map Prod.fst).Nodup :=
  (sortDesc_keys_perm logits).nodup_iff.mpr (List.nodup_range _)

theorem sortDesc_key_lt (logits : List (WithBot ℚ)) (i : ℕ)
    (hi : i < (sortDesc logits).length) :
    (sortDesc logits)[i].1 < logits.length := by
  have hmem : (sortDesc logits)[i].1 ∈ (sortDesc logits).map Prod.fst :=
    List.mem_map_of_mem Prod.fst (List.getElem_mem hi)
  exact List.mem_range.mp ((sortDesc_keys_perm logits).mem_iff.mp hmem)

theorem sortDesc_snd (logits : List (WithBot ℚ)) (i : ℕ)
    (hi : i < (sortDesc logits).length) :
    logits[(sortDesc logits)[i].1]? = some (sortDesc logits)[i].2 := by
  have hmem : (sortDesc logits)[i] ∈ logits.enum :=
    (sortDesc_perm logits).mem_iff.mp (List.getElem_mem hi)
  exact List.mk_mem_enum_iff_getElem?.mp (by rwa [Prod.mk.eta])

theorem foldl_set_zip_getElem (keys : List ℕ) (flags base : List Bool)
    (hnd : keys.Nodup) (hlen : keys.length ≤ flags.length)
    (i : ℕ) (hik : i < keys.length) (hif : i < flags.length)
    (hjb : keys[i] < base.length) :
    ((keys.zip flags).foldl (fun m jb => m.set jb.1 jb.2) base)[keys[i]]?
      = some (flags[i]) := by
  have hzlen : i < (keys.zip flags).length := by
    rw [List.length_zip]
    omega
  have hz : (keys.zip flags)[i] = (keys[i], flags[i]) := List.getElem_zip
  exact foldl_set_getElem_of_mem (keys.zip flags) keys[i] (flags[i]) base
    (by rw [List.map_fst_zip _ _ hlen]; exact hnd)
    (hz ▸ List.getElem_mem hzlen) hjb

theorem softmax_nonneg (expQ : ℚ → ℚ) (hexp : ∀ x, 0 < expQ x)
    (l : List (WithBot ℚ)) (hS : 0 ≤ (l.map (expW expQ)).sum) :
    ∀ x ∈ softmax expQ l, 0 ≤ x := by
  intro x hx
  rw [softmax, List.mem_map] at hx
  obtain ⟨w, _, rfl⟩ := hx
  exact div_nonneg (expW_nonneg expQ hexp w) hS

theorem softmax_sum_one (expQ : ℚ → ℚ) (l : List (WithBot ℚ))
    (hS : (l.map (expW expQ)).sum ≠ 0) :
    (softmax expQ l).sum = 1 := by
  have hmm : l.map (fun w => expW expQ w / (l.map (expW expQ)).sum) =
      (l.map (expW expQ)).map (fun x => x / (l.map (expW expQ)).sum) := by
    rw [List.map_map]
    rfl
  rw [softmax, hmm, list_div_sum, div_self hS]

theorem masked_expW_sum (expQ : ℚ → ℚ) (top_p : ℚ) (logits : List (WithBot ℚ)) :
    ((nucleusFilter expQ top_p logits).map (expW expQ)).sum =
      (List.zipWith (fun pr b => if b then 0 else expW expQ pr.2)
        (sortDesc logits)
        (shiftRight
          ((cumsum (softmax expQ ((sortDesc logits).map Prod.snd))).map
            (fun c => decide (top_p < c))))).sum := by
  rw [nucleusFilter_eq]
  set sp := sortDesc logits with hsp
  set flags := shiftRight
    ((cumsum (softmax expQ (sp.map Prod.snd))).map
      (fun c => decide (top_p < c))) with hflags
  set maskList := ((sp.map Prod.fst).zip flags).foldl
    (fun m jb => m.set jb.1 jb.2) flags with hmaskdef
  have hsplen : sp.length = logits.length := sortDesc_length logits
  have hflagslen : flags.length = logits.length := by
    rw [hflags, shiftRight_length, List.length_map, cumsum, cumsumFrom_length,
      softmax_length, List.length_map, hsplen]
  have hmasklen : maskList.length = logits.length := by
    rw [hmaskdef, foldl_set_length, hflagslen]
  have hmaskj : ∀ i, i < sp.length → ∀ hif : i < flags.length,
      maskList[sp[i].1]? = some (flags[i]) := by
    intro i hik hif
    have him : i < (sp.map Prod.fst).length := by
      rw [List.length_map]
      exact hik
    have hk : (sp.map Prod.fst)[i] = sp[i].1 := List.getElem_map Prod.fst
    have h := foldl_set_zip_getElem (sp.map Prod.fst) flags flags
      (sortDesc_keys_nodup logits)
      (by rw [List.length_map, hsplen, hflagslen])
      i him hif
      (by rw [hk, hflagslen]; exact sortDesc_key_lt logits i hik)
    rwa [hk] at h
  set hfun : ℕ → ℚ := fun j =>
    expW expQ (if maskList.getD j false then ⊥ else logits.getD j ⊥) with hhfun
  have step1 : (List.zipWith (fun l b => if b then (⊥ : WithBot ℚ) else l)
      logits maskList).map (expW expQ) = (List.range logits.length).map hfun := by
    apply List.ext_getElem
    · simp [hmasklen]
    · intro j h1 h2
      have hj : j < logits.length := by simpa using h2
      rw [List.getElem_map, List.getElem_zipWith, List.getElem_map,
        List.getElem_range, hhfun]
      simp only
      rw [List.getD_eq_getElem _ _ (by omega : j < maskList.length),
        List.getD_eq_getElem _ _ hj]
  have step2 : ((List.range logits.length).map hfun).sum =
      ((sp.map Prod.fst).map hfun).sum :=
    ((sortDesc_keys_perm logits).symm.map hfun).sum_eq
  have step3 : (sp.map Prod.fst).map hfun =
      List.zipWith (fun pr b => if b then 0 else expW expQ pr.2) sp flags := by
    apply List.ext_getElem
    · simp [hflagslen, hsplen]
    · intro i h1 h2
      have hik : i < sp.length := by simpa using h1
      have hif : i < flags.length := by omega
      rw [List.getElem_map, List.getElem_map, List.getElem_zipWith]
      simp only [hhfun]
      rw [List.getD_eq_getElem?_getD, hmaskj i hik hif, Option.getD_some,
        List.getD_eq_getElem?_getD, sortDesc_snd logits i hik, Option.getD_some]
      cases hb : flags[i]
      · simp
      · simp [expW_bot]
  rw [step1, step2, step3]

theorem zipWith_mask_getElem? (L : List (WithBot ℚ)) (B : List Bool) (j : ℕ)
    (hj : j < L.length) (hjb : j < B.length) (hb : B[j]? = some false) :
    (L.zipWith (fun l b => if b then (⊥ : WithBot ℚ) else l) B)[j]? = L[j]? := by
  have hjz : j < (L.zipWith (fun l b => if b then (⊥ : WithBot ℚ) else l) B).length := by
    rw [List.length_zipWith]
    omega
  rw [List.getElem?_eq_getElem hjz, List.getElem_zipWith]
  rw [List.getElem?_eq_getElem hjb] at hb
  rw [Option.some.inj hb]
  simp [List.getElem?_eq_getElem hj]

/-- C2: with the nucleus threshold `top_p` active (a probability,
`top_p ≤ 1`), for every logit vector holding at least one finite entry and
every strictly positive exponential: the set of tokens whose logits survive
the nucleus filter (are not `-inf` afterwards) has cumulative softmax
probability `≥ top_p` under the pre-filter logits, and that set is never
empty — the highest-probability token always survives. -/
theorem nucleusFilter_claims (expQ : ℚ → ℚ) (top_p : ℚ)
    (logits : List (WithBot ℚ))
    (hexp : ∀ x, 0 < expQ x) (hp : top_p ≤ 1)
    (hnb : ∃ l ∈ logits, l ≠ ⊥) :
    top_p ≤ keptMass expQ logits (nucleusFilter expQ top_p logits) ∧
    ∃ l ∈ nucleusFilter expQ top_p logits, l ≠ ⊥ := by
  obtain ⟨l0, hl0mem, hl0ne⟩ := hnb
  have hV : 0 < logits.length :=
    List.length_pos.mpr (List.ne_nil_of_mem hl0mem)
  have hSnn : ∀ x ∈ logits.map (expW expQ), 0 ≤ x := by
    intro x hx
    rw [List.mem_map] at hx
    obtain ⟨w, _, rfl⟩ := hx
    exact expW_nonneg expQ hexp w
  have hSpos : 0 < (logits.map (expW expQ)).sum := by
    apply sum_pos_of_mem_pos _ hSnn
    obtain ⟨x, hx⟩ := WithBot.ne_bot_iff_exists.mp hl0ne
    refine ⟨expW expQ l0, List.mem_map_of_mem _ hl0mem, ?_⟩
    rw [← hx]
    exact hexp x
  have hspS : (((sortDesc logits).map Prod.snd).map (expW expQ)).sum =
      (logits.map (expW expQ)).sum := by
    have h := (sortDesc_perm logits).map Prod.snd
    rw [List.enum_map_snd] at h
    exact (h.map (expW expQ)).sum_eq
  constructor
  · -- cumulative kept probability bound
    have hq := softmax_nonneg expQ hexp ((sortDesc logits).map Prod.snd)
      (by rw [hspS]; exact hSpos.le)
    have hqsum : (softmax expQ ((sortDesc logits).map Prod.snd)).sum = 1 :=
      softmax_sum_one expQ _ (by rw [hspS]; exact hSpos.ne')
    have hqne : softmax expQ ((sortDesc logits).map Prod.snd) ≠ [] := by
      have hql : (softmax expQ ((sortDesc logits).map Prod.snd)).length =
          logits.length := by
        rw [softmax_length, List.length_map, sortDesc_length]
      intro hnil
      rw [hnil] at hql
      simp at hql
      omega
    have hkp := kept_prob_ge top_p hp _ hq hqsum hqne
    have hE1 : keptMass expQ logits (nucleusFilter expQ top_p logits) =
        ((nucleusFilter expQ top_p logits).map (expW expQ)).sum /
          (logits.map (expW expQ)).sum := by
      unfold keptMass softmax
      rw [keptMass_filter_sum expQ _ logits _ (masked_forall₂ expQ top_p logits)]
      have hmm2 : (nucleusFilter expQ top_p logits).map
          (fun w => expW expQ w / (logits.map (expW expQ)).sum) =
          ((nucleusFilter expQ top_p logits).map (expW expQ)).map
            (fun x => x / (logits.map (expW expQ)).sum) := by
        rw [List.map_map]
        rfl
      rw [hmm2, list_div_sum]
    have hE3 : (List.zipWith (fun pr b => if b then 0 else expW expQ pr.2)
          (sortDesc logits)
          (shiftRight
            ((cumsum (softmax expQ ((sortDesc logits).map Prod.snd))).map
              (fun c => decide (top_p < c))))).sum /
            (logits.map (expW expQ)).sum
        = (List.zipWith (fun x b => if b then 0 else x)
            (softmax expQ ((sortDesc logits).map Prod.snd))
            (shiftRight
              ((cumsum (softmax expQ ((sortDesc logits).map Prod.snd))).map
                (fun c => decide (top_p < c))))).sum := by
      set F := shiftRight
        ((cumsum (softmax expQ ((sortDesc logits).map Prod.snd))).map
          (fun c => decide (top_p < c))) with hF
      rw [← list_div_sum]
      congr 1
      apply List.ext_getElem
      · rw [List.length_map, List.length_zipWith, List.length_zipWith,
          softmax_length, List.length_map]
      · intro i h1 h2
        have hisp : i < (sortDesc logits).length := by
          rw [List.length_map, List.length_zipWith] at h1
          omega
        have hiF : i < F.length := by
          rw [List.length_map, List.length_zipWith] at h1
          omega
        have hism : i < (softmax expQ ((sortDesc logits).map Prod.snd)).length := by
          rw [softmax_length, List.length_map]
          exact hisp
        rw [List.getElem_map, List.getElem_zipWith, List.getElem_zipWith]
        cases hb : F[i] with
        | true => simp [hb]
        | false =>
          simp only [Bool.false_eq_true, if_false]
          have hims : i < ((sortDesc logits).map Prod.snd).length := by
            rw [List.length_map]
            exact hisp
          have hsm : (softmax expQ ((sortDesc logits).map Prod.snd))[i] =
              expW expQ (((sortDesc logits).map Prod.snd)[i]) /
                (((sortDesc logits).map Prod.snd).map (expW expQ)).sum :=
            List.getElem_map _
          rw [hsm, hspS, List.getElem_map]
    rw [hE1, masked_expW_sum expQ top_p logits, hE3]
    exact hkp
  · -- the top sorted entry always survives
    have hsplen : (sortDesc logits).length = logits.length := sortDesc_length logits
    have hsp0 : 0 < (sortDesc logits).length := by omega
    have hflagslen :
        (shiftRight
          ((cumsum (softmax expQ ((sortDesc logits).map Prod.snd))).map
            (fun c => decide (top_p < c)))).length = logits.length := by
      rw [shiftRight_length, List.length_map, cumsum, cumsumFrom_length,
        softmax_length, List.length_map, hsplen]
    have hflags0 :
        (shiftRight
          ((cumsum (softmax expQ ((sortDesc logits).map Prod.snd))).map
            (fun c => decide (top_p < c))))[0]? = some false := by
      cases hc : (cumsum (softmax expQ ((sortDesc logits).map Prod.snd))).map
          (fun c => decide (top_p < c)) with
      | nil =>
        exfalso
        have := hflagslen
        rw [hc] at this
        simp [shiftRight] at this
        omega
      | cons c cs => simp [shiftRight]
    have hkey0 : (sortDesc logits)[0].1 < logits.length :=
      sortDesc_key_lt logits 0 hsp0
    have hkm : 0 < ((sortDesc logits).map Prod.fst).length := by
      rw [List.length_map]
      exact hsp0
    have hkeq : ((sortDesc logits).map Prod.fst)[0] = (sortDesc logits)[0].1 :=
      List.getElem_map Prod.fst
    have hm0 := foldl_set_zip_getElem ((sortDesc logits).map Prod.fst)
      (shiftRight
        ((cumsum (softmax expQ ((sortDesc logits).map Prod.snd))).map
          (fun c => decide (top_p < c))))
      (shiftRight
        ((cumsum (softmax expQ ((sortDesc logits).map Prod.snd))).map
          (fun c => decide (top_p < c))))
      (sortDesc_keys_nodup logits)
      (by rw [List.length_map, hsplen, hflagslen])
      0 hkm (by omega)
      (by rw [hkeq, hflagslen]; exact hkey0)
    rw [hkeq] at hm0
    rw [List.getElem?_eq_getElem (by omega)] at hflags0
    rw [Option.some.inj hflags0] at hm0
    have hmsk : ((((sortDesc logits).map Prod.fst).zip
        (shiftRight
          ((cumsum (softmax expQ ((sortDesc logits).map Prod.snd))).map
            (fun c => decide (top_p < c))))).foldl
        (fun m jb => m.set jb.1 jb.2)
        (shiftRight
          ((cumsum (softmax expQ ((sortDesc logits).map Prod.snd))).map
            (fun c => decide (top_p < c))))).length = logits.length := by
      rw [foldl_set_length, hflagslen]
    have hsnd0 : logits[(sortDesc logits)[0].1]? = some (sortDesc logits)[0].2 :=
      sortDesc_snd logits 0 hsp0
    have hkept := zipWith_mask_getElem? logits _ ((sortDesc logits)[0].1)
      hkey0 (by omega) hm0
    -- the survivor is the maximal logit, which is not -inf
    have hs02ne : (sortDesc logits)[0].2 ≠ ⊥ := by
      obtain ⟨i0, hi0, hl0⟩ := List.getElem_of_mem hl0mem
      have henum : (i0, l0) ∈ logits.enum :=
        List.mk_mem_enum_iff_getElem?.mpr
          (by rw [List.getElem?_eq_getElem hi0, hl0])
      have hspmem : (i0, l0) ∈ sortDesc logits :=
        (sortDesc_perm logits).mem_iff.mpr henum
      obtain ⟨i, hi, hspi⟩ := List.getElem_of_mem hspmem
      have hle : l0 ≤ (sortDesc logits)[0].2 := by
        rcases Nat.eq_zero_or_pos i with h0 | h0
        · subst h0
          rw [hspi]
        · have hrel := (sortDesc_sorted logits).rel_get_of_lt
            (a := ⟨0, hsp0⟩) (b := ⟨i, hi⟩) (by simpa using h0)
          simp only [geSnd, List.get_eq_getElem] at hrel
          rw [hspi] at hrel
          exact hrel
      intro hbot
      rw [hbot] at hle
      exact hl0ne (le_bot_iff.mp hle)
    rw [nucleusFilter_eq]
    exact ⟨(sortDesc logits)[0].2, List.getElem?_mem (hkept.trans hsnd0), hs02ne⟩

theorem nucleusFilter_claims_witness :
    (1 : ℚ) / 2 ≤ keptMass (fun _ => 1) [(1 : WithBot ℚ), 0]
      (nucleusFilter (fun _ => 1) (1 / 2) [(1 : WithBot ℚ), 0]) ∧
    ∃ l ∈ nucleusFilter (fun _ => 1) (1 / 2) [(1 : WithBot ℚ), 0], l ≠ ⊥ :=
  nucleusFilter_claims (fun _ => 1) (1 / 2) [(1 : WithBot ℚ), 0]
    (fun _ => by norm_num) (by norm_num) ⟨1, by decide, by decide⟩

theorem shapes_of_mem (n : ℕ) (b : Bool) (e : ModEntry)
    (he : e ∈ namedModules n b) :
    WShape n b e ∨ (e.params = [] ∧ e.kind ≠ .linearM ∧ e.kind ≠ .layerNormM ∧
      e.kind ≠ .embeddingM) := by
  simp only [namedModules, blockModules, List.mem_append, List.mem_cons,
    List.mem_flatMap, List.mem_range, List.not_mem_nil, or_false] at he
  unfold WShape
  rcases he with ((h|h|h|h|h) | ⟨i, hi, (h|h|h|h|h|h|h|h|h|h|h|h|h)⟩) | h | h
  all_goals subst h
  · exact Or.inr ⟨rfl, by simp, by simp, by simp⟩
  · exact Or.inl (Or.inl rfl)
  · exact Or.inl (Or.inr (Or.inl rfl))
  · exact Or.inr ⟨rfl, by simp, by simp, by simp⟩
  · exact Or.inr ⟨rfl, by simp, by simp, by simp⟩
  · exact Or.inr ⟨rfl, by simp, by simp, by simp⟩
  · exact Or.inl (Or.inr (Or.inr (Or.inr (Or.inr
      ⟨toString i, ⟨i, hi, rfl⟩, Or.inl rfl⟩))))
  · exact Or.inr ⟨rfl, by simp, by simp, by simp⟩
  · exact Or.inl (Or.inr (Or.inr (Or.inr (Or.inr
      ⟨toString i, ⟨i, hi, rfl⟩, Or.inr (Or.inr (Or.inl rfl))⟩))))
  · exact Or.inl (Or.inr (Or.inr (Or.inr (Or.inr
      ⟨toString i, ⟨i, hi, rfl⟩, Or.inr (Or.inr (Or.inr (Or.inl rfl)))⟩))))
  · exact Or.inr ⟨rfl, by simp, by simp, by simp⟩
  · exact Or.inr ⟨rfl, by simp, by simp, by simp⟩
  · exact Or.inl (Or.inr (Or.inr (Or.inr (Or.inr
      ⟨toString i, ⟨i, hi, rfl⟩, Or.inr (Or.inl rfl)⟩))))
  · exact Or.inr ⟨rfl, by simp, by simp, by simp⟩
  · exact Or.inl (Or.inr (Or.inr (Or.inr (Or.inr
      ⟨toString i, ⟨i, hi, rfl⟩,
        Or.inr (Or.inr (Or.inr (Or.inr (Or.inl rfl))))⟩))))
  · exact Or.inr ⟨rfl, by simp, by simp, by simp⟩
  · exact Or.inl (Or.inr (Or.inr (Or.inr (Or.inr
      ⟨toString i, ⟨i, hi, rfl⟩,
        Or.inr (Or.inr (Or.inr (Or.inr (Or.inr rfl))))⟩))))
  · exact Or.inr ⟨rfl, by simp, by simp, by simp⟩
  · exact Or.inl (Or.inr (Or.inr (Or.inl rfl)))
  · exact Or.inl (Or.inr (Or.inr (Or.inr (Or.inl rfl))))

theorem shapes_of_kind (n : ℕ) (b : Bool) (e : ModEntry)
    (he : e ∈ namedModules n b)
    (hk : e.kind = .linearM ∨ e.kind = .layerNormM ∨ e.kind = .embeddingM) :
    WShape n b e := by
  rcases shapes_of_mem n b e he with h | ⟨_, h1, h2, h3⟩
  · exact h
  · rcases hk with h | h | h
    · exact absurd h h1
    · exact absurd h h2
    · exact absurd h h3

theorem shapes_of_param (n : ℕ) (b : Bool) (e : ModEntry) (p : String)
    (he : e ∈ namedModules n b) (hp : p ∈ e.params) : WShape n b e := by
  rcases shapes_of_mem n b e he with h | ⟨h0, _⟩
  · exact h
  · rw [h0] at hp
    simp at hp

theorem mem_linearParams (b : Bool) (p : String) (hp : p ∈ linearParams b) :
    p = "weight" ∨ p = "bias" := by
  unfold linearParams at hp
  cases b
  · simp at hp
    exact Or.inl hp
  · simp at hp
    exact hp

theorem param_weight_or_bias (n : ℕ) (b : Bool) (e : ModEntry) (p : String)
    (he : e ∈ namedModules n b) (hp : p ∈ e.params) :
    p = "weight" ∨ p = "bias" := by
  have hw := shapes_of_param n b e p he hp
  unfold WShape at hw
  rcases hw with h|h|h|h|⟨s, _, (h|h|h|h|h|h)⟩
  all_goals rw [h] at hp
  all_goals first
    | (simp at hp; exact Or.inl hp)
    | exact mem_linearParams b p hp

theorem shape_kind (n : ℕ) (b : Bool) (e : ModEntry) (hw : WShape n b e) :
    e.kind = .linearM ∨ e.kind = .layerNormM ∨ e.kind = .embeddingM := by
  unfold WShape at hw
  rcases hw with h|h|h|h|⟨s, _, (h|h|h|h|h|h)⟩
  all_goals rw [h]
  all_goals simp

theorem linear_prefix_linear (n : ℕ) (b : Bool) (e1 e2 : ModEntry)
    (h1 : e1 ∈ namedModules n b) (h2 : e2 ∈ namedModules n b)
    (hk : e1.kind = .linearM) (hw : "weight" ∈ e2.params)
    (hpre : e1.path <+: e2.path) : e2.kind = .linearM := by
  have hs1 := shapes_of_kind n b e1 h1 (Or.inl hk)
  have hs2 := shapes_of_param n b e2 "weight" h2 hw
  obtain ⟨t, ht⟩ := hpre
  unfold WShape at hs1 hs2
  rcases hs1 with h|h|h|h|⟨s, hsw, (h|h|h|h|h|h)⟩ <;>
    rcases hs2 with g|g|g|g|⟨s2, hsw2, (g|g|g|g|g|g)⟩ <;>
    subst h <;> subst g <;> simp_all

theorem lnemb_prefix_lnemb (n : ℕ) (b : Bool) (e1 e2 : ModEntry)
    (h1 : e1 ∈ namedModules n b) (h2 : e2 ∈ namedModules n b)
    (hk : e1.kind = .layerNormM ∨ e1.kind = .embeddingM)
    (hw : "weight" ∈ e2.params) (hpre : e1.path <+: e2.path) :
    e2.kind = .layerNormM ∨ e2.kind = .embeddingM := by
  have hs1 := shapes_of_kind n b e1 h1 (by tauto)
  have hs2 := shapes_of_param n b e2 "weight" h2 hw
  obtain ⟨t, ht⟩ := hpre
  unfold WShape at hs1 hs2
  rcases hs1 with h|h|h|h|⟨s, hsw, (h|h|h|h|h|h)⟩ <;>
    rcases hs2 with g|g|g|g|⟨s2, hsw2, (g|g|g|g|g|g)⟩ <;>
    subst h <;> subst g <;> simp_all

theorem classify_decay_iff (mk : MKind) (p : String) :
    classify mk p = .decay ↔ p = "weight" ∧ mk = .linearM := by
  unfold classify
  by_cases h1 : p = "bias"
  · simp [h1]
  · rw [if_neg h1]
    by_cases h2 : p = "weight" ∧ mk = .linearM
    · simp [h2]
    · rw [if_neg h2]
      split
      · simp [h2]
      · simp [h2]

theorem classify_noDecay_iff (mk : MKind) (p : String) :
    classify mk p = .noDecay ↔
      p = "bias" ∨ (p = "weight" ∧ (mk = .layerNormM ∨ mk = .embeddingM)) := by
  unfold classify
  by_cases h1 : p = "bias"
  · simp [h1]
  · rw [if_neg h1]
    by_cases h2 : p = "weight" ∧ mk = .linearM
    · -- decay branch: not noDecay; right side must be false
      rw [if_pos h2]
      simp only [h1, false_or]
      constructor
      · intro h
        exact absurd h (by simp)
      · intro ⟨_, hlnemb⟩
        rcases hlnemb with h | h <;> (rw [h] at h2; exact absurd h2.2 (by simp [h]))
    · rw [if_neg h2]
      by_cases h3 : p = "weight" ∧ (mk = .layerNormM ∨ mk = .embeddingM)
      · simp [h3]
      · rw [if_neg h3]
        simp [h1, h3]

theorem root_mem_namedModules (n : ℕ) (b : Bool) :
    (⟨[], .rootM, []⟩ : ModEntry) ∈ namedModules n b := by
  simp [namedModules]

theorem mem_decaySet_iff (n : ℕ) (b : Bool) (x : List String) :
    x ∈ decaySet n b ↔ ∃ e ∈ namedModules n b,
      e.kind = .linearM ∧ "weight" ∈ e.params ∧ x = e.path ++ ["weight"] := by
  constructor
  · intro hx
    unfold decaySet at hx
    rw [List.mem_flatMap] at hx
    obtain ⟨m, hm, hx⟩ := hx
    rw [List.mem_flatMap] at hx
    obtain ⟨m2, hm2, hx⟩ := hx
    by_cases hpre : m.path.isPrefixOf m2.path
    · rw [if_pos hpre, List.mem_filterMap] at hx
      obtain ⟨p, hp, hcls⟩ := hx
      by_cases hc : classify m.kind p = .decay
      · rw [if_pos hc] at hcls
        obtain ⟨hpw, hmk⟩ := (classify_decay_iff m.kind p).mp hc
        subst hpw
        have hlin2 := linear_prefix_linear n b m m2 hm hm2 hmk hp
          (List.isPrefixOf_iff_prefix.mp hpre)
        exact ⟨m2, hm2, hlin2, hp, (Option.some.inj hcls).symm⟩
      · rw [if_neg hc] at hcls
        exact absurd hcls (by simp)
    · rw [if_neg hpre] at hx
      simp at hx
  · intro ⟨e, he, hk, hw, hxe⟩
    unfold decaySet
    rw [List.mem_flatMap]
    refine ⟨e, he, ?_⟩
    rw [List.mem_flatMap]
    refine ⟨e, he, ?_⟩
    rw [if_pos (List.isPrefixOf_iff_prefix.mpr (List.prefix_refl e.path)),
      List.mem_filterMap]
    exact ⟨"weight", hw, by
      rw [if_pos ((classify_decay_iff e.kind "weight").mpr ⟨rfl, hk⟩), hxe]⟩

theorem mem_noDecaySet_iff (n : ℕ) (b : Bool) (x : List String) :
    x ∈ noDecaySet n b ↔ ∃ e ∈ namedModules n b,
      ("bias" ∈ e.params ∧ x = e.path ++ ["bias"]) ∨
      ((e.kind = .layerNormM ∨ e.kind = .embeddingM) ∧ "weight" ∈ e.params ∧
        x = e.path ++ ["weight"]) := by
  constructor
  · intro hx
    unfold noDecaySet at hx
    rw [List.mem_flatMap] at hx
    obtain ⟨m, hm, hx⟩ := hx
    rw [List.mem_flatMap] at hx
    obtain ⟨m2, hm2, hx⟩ := hx
    by_cases hpre : m.path.isPrefixOf m2.path
    · rw [if_pos hpre, List.mem_filterMap] at hx
      obtain ⟨p, hp, hcls⟩ := hx
      by_cases hc : classify m.kind p = .noDecay
      · rw [if_pos hc] at hcls
        rcases (classify_noDecay_iff m.kind p).mp hc with hpb | ⟨hpw, hmk⟩
        · subst hpb
          exact ⟨m2, hm2, Or.inl ⟨hp, (Option.some.inj hcls).symm⟩⟩
        · subst hpw
          have hln2 := lnemb_prefix_lnemb n b m m2 hm hm2 hmk hp
            (List.isPrefixOf_iff_prefix.mp hpre)
          exact ⟨m2, hm2, Or.inr ⟨hln2, hp, (Option.some.inj hcls).symm⟩⟩
      · rw [if_neg hc] at hcls
        exact absurd hcls (by simp)
    · rw [if_neg hpre] at hx
      simp at hx
  · intro ⟨e, he, hcase⟩
    unfold noDecaySet
    rw [List.mem_flatMap]
    rcases hcase with ⟨hb, hxe⟩ | ⟨hk, hw, hxe⟩
    · refine ⟨⟨[], .rootM, []⟩, root_mem_namedModules n b, ?_⟩
      rw [List.mem_flatMap]
      refine ⟨e, he, ?_⟩
      rw [if_pos (List.isPrefixOf_iff_prefix.mpr (List.nil_prefix)),
        List.mem_filterMap]
      exact ⟨"bias", hb, by
        rw [if_pos ((classify_noDecay_iff .rootM "bias").mpr (Or.inl rfl)), hxe]⟩
    · refine ⟨e, he, ?_⟩
      rw [List.mem_flatMap]
      refine ⟨e, he, ?_⟩
      rw [if_pos (List.isPrefixOf_iff_prefix.mpr (List.prefix_refl e.path)),
        List.mem_filterMap]
      exact ⟨"weight", hw, by
        rw [if_pos ((classify_noDecay_iff e.kind "weight").mpr
          (Or.inr ⟨rfl, hk⟩)), hxe]⟩

theorem decay_disjoint_noDecay (n : ℕ) (b : Bool) :
    ∀ x ∈ decaySet n b, x ∉ noDecaySet n b := by
  intro x hd hnd
  rw [mem_decaySet_iff] at hd
  obtain ⟨e1, he1, hk1, hw1, hx1⟩ := hd
  rw [mem_noDecaySet_iff] at hnd
  obtain ⟨e2, he2, hcase⟩ := hnd
  rcases hcase with ⟨hb2, hx2⟩ | ⟨hk2, hw2, hx2⟩
  · rw [hx1] at hx2
    have := congrArg List.getLast? hx2
    rw [List.getLast?_concat, List.getLast?_concat] at this
    simp at this
  · rw [hx1] at hx2
    have hlen : e1.path.length = e2.path.length := by
      have := congrArg List.length hx2
      simp at this
      exact this
    have hpaths : e1.path = e2.path := (List.append_inj hx2 hlen).1
    have hlin2 := linear_prefix_linear n b e1 e2 he1 he2 hk1 hw2
      (hpaths ▸ List.prefix_refl e1.path)
    rcases hk2 with h | h <;> (rw [hlin2] at h; exact absurd h (by simp))

theorem params_union (n : ℕ) (b : Bool) :
    ∀ x, x ∈ namedParameters n b ↔ x ∈ decaySet n b ∨ x ∈ noDecaySet n b := by
  intro x
  constructor
  · intro hx
    unfold namedParameters at hx
    rw [List.mem_flatMap] at hx
    obtain ⟨m, hm, hx⟩ := hx
    rw [List.mem_map] at hx
    obtain ⟨p, hp, hxe⟩ := hx
    rcases param_weight_or_bias n b m p hm hp with rfl | rfl
    · rcases shape_kind n b m (shapes_of_param n b m "weight" hm hp) with hk | hk
      · exact Or.inl ((mem_decaySet_iff n b x).mpr ⟨m, hm, hk, hp, hxe.symm⟩)
      · exact Or.inr ((mem_noDecaySet_iff n b x).mpr
          ⟨m, hm, Or.inr ⟨hk, hp, hxe.symm⟩⟩)
    · exact Or.inr ((mem_noDecaySet_iff n b x).mpr ⟨m, hm, Or.inl ⟨hp, hxe.symm⟩⟩)
  · intro hx
    unfold namedParameters
    rw [List.mem_flatMap]
    rcases hx with hx | hx
    · rw [mem_decaySet_iff] at hx
      obtain ⟨e, he, _, hw, hxe⟩ := hx
      exact ⟨e, he, List.mem_map.mpr ⟨"weight", hw, hxe.symm⟩⟩
    · rw [mem_noDecaySet_iff] at hx
      obtain ⟨e, he, hcase⟩ := hx
      rcases hcase with ⟨hb, hxe⟩ | ⟨_, hw, hxe⟩
      · exact ⟨e, he, List.mem_map.mpr ⟨"bias", hb, hxe.symm⟩⟩
      · exact ⟨e, he, List.mem_map.mpr ⟨"weight", hw, hxe.symm⟩⟩

/-- C5: for every DeltaGPT model (any layer count, any bias setting),
`configure_optimizers` classifies every named parameter into exactly one of
the decay / no-decay sets — the two sets are disjoint and their union is the
full parameter set — and the assert-guarded construction succeeds; moreover
any violation of the partition (on arbitrary inputs to the checking step)
makes construction fail with an `AssertionError` rather than being silently
tolerated. -/
theorem configure_optimizers_partition (n_layer : ℕ) (bias : Bool) :
    (∀ x ∈ decaySet n_layer bias, x ∉ noDecaySet n_layer bias) ∧
    (∀ x, x ∈ namedParameters n_layer bias ↔
      x ∈ decaySet n_layer bias ∨ x ∈ noDecaySet n_layer bias) ∧
    configure_optimizers n_layer bias =
      .ok (decaySet n_layer bias, noDecaySet n_layer bias) ∧
    (∀ d nd ps : List (List String),
      ((∃ x ∈ d, x ∈ nd) ∨ ∃ x ∈ ps, x ∉ d ∧ x ∉ nd) →
      ∃ e, partitionCheck d nd ps = .error e) := by
  refine ⟨decay_disjoint_noDecay n_layer bias, params_union n_layer bias, ?_, ?_⟩
  · unfold configure_optimizers
    have hc1 : ((decaySet n_layer bias).filter
        (fun x => decide (x ∈ noDecaySet n_layer bias))) = [] := by
      rw [List.filter_eq_nil_iff]
      intro a ha
      simp only [decide_eq_true_eq]
      exact decay_disjoint_noDecay n_layer bias a ha
    have hc2 : ((namedParameters n_layer bias).filter
        (fun x => decide (x ∉ decaySet n_layer bias ∧
          x ∉ noDecaySet n_layer bias))) = [] := by
      rw [List.filter_eq_nil_iff]
      intro a ha
      simp only [decide_eq_true_eq, not_and, not_not]
      intro hnd
      rcases (params_union n_layer bias a).mp ha with h | h
      · exact absurd h hnd
      · exact h
    rw [partitionCheck, hc1, hc2]
    simp
  · intro d nd ps hviol
    unfold partitionCheck
    by_cases h1 : (d.filter (fun x => decide (x ∈ nd))).length ≠ 0
    · exact ⟨_, by rw [if_pos h1]⟩
    · rw [if_neg h1]
      rcases hviol with ⟨x, hx, hxnd⟩ | ⟨x, hx, hxd, hxnd⟩
      · exfalso
        apply h1
        have hmem : x ∈ d.filter (fun x => decide (x ∈ nd)) :=
          List.mem_filter.mpr ⟨hx, by simpa using hxnd⟩
        have := List.length_pos.mpr (List.ne_nil_of_mem hmem)
        omega
      · have hmem : x ∈ ps.filter
            (fun x => decide (x ∉ d ∧ x ∉ nd)) :=
          List.mem_filter.mpr ⟨hx, by simp [hxd, hxnd]⟩
        have hlen := List.length_pos.mpr (List.ne_nil_of_mem hmem)
        exact ⟨_, by rw [if_pos (by omega)]⟩

theorem configure_optimizers_partition_witness :
    ∃ e, partitionCheck [["head", "weight"]] [["head", "weight"]] [] =
      .error e :=
  (configure_optimizers_partition 1 false).2.2.2
    [["head", "weight"]] [["head", "weight"]] []
    (Or.inl ⟨["head", "weight"], by decide, by decide⟩)

end DeltaSpec
